import Mathlib

/-!
Verification development for the zn-perf substring-search core.

The repository compares three strategies for substring search over
text-valued columns of a columnar, compressed storage file (parquet):
a metadata inspector (`zn_perf::metadata`), a raw chunk scanner
(`zn_perf::file`), a decoded batch scanner (`zn_perf::arrow`) and a
query-engine-integrated matcher (`zn_perf::match_udf`).  The crate root
(`src/lib.rs`) declares these modules and the bench `benches/it.rs`
drives them; the module bodies themselves are not part of the sources
at hand, so the definitions below for those modules are modelled from
the specification's component contracts (each such definition says so
in its doc comment).  The bench file is embedded from its source where
it carries behaviour (the `@timestamp` filter, the `str_match`
registration and call shape).
-/

set_option maxHeartbeats 1000000

/-! ## Error model (spec §7, `src/lib.rs` re-exports `ZnError`/`ZnResult`) -/

/-- Modelled from the spec: the typed error kinds of §7 for the missing
`error` module.  `IoError` and `DecodeError` arise at a row-group/column-chunk
step and carry the failing column name and row-group index (§7 propagation
policy); `FormatError` reports a bad footer; `TypeError` reports a bad
argument count/type at registration/plan time (§4.4). -/
inductive ZnError where
  | IoError (column : String) (rowGroup : Nat)
  | FormatError (msg : String)
  | DecodeError (column : String) (rowGroup : Nat)
  | TypeError (msg : String)
deriving DecidableEq

/-- The column name an error carries, when it carries one. -/
def ZnError.column : ZnError → Option String
  | .IoError c _ => some c
  | .DecodeError c _ => some c
  | _ => none

/-- The row-group index an error carries, when it carries one. -/
def ZnError.rowGroupIdx : ZnError → Option Nat
  | .IoError _ i => some i
  | .DecodeError _ i => some i
  | _ => none

/-- Modelled from the spec: `ZnResult<T>` (`src/lib.rs` line 9). -/
abbrev ZnResult (α : Type) := Except ZnError α

/-! ## Data model (spec §3) -/

/-- Modelled from the spec: the physical/logical type tag of a column
chunk (§3 ColumnChunkMetadata).  Textual means the string/byte-array
category (glossary). -/
inductive LogicalType where
  | utf8
  | byteArray
  | int64
  | float64
  | boolean
  | timestampType
  | otherType
deriving DecidableEq

/-- Whether a logical type is in the textual (string/byte-array) category. -/
def LogicalType.isTextual : LogicalType → Bool
  | .utf8 => true
  | .byteArray => true
  | _ => false

/-- Modelled from the spec: ColumnChunkMetadata (§3): name, type tag,
compressed and uncompressed byte length.  (Codec and byte offsets are
not needed by any claim and are elided.) -/
structure ColumnChunkMeta where
  name : String
  logicalType : LogicalType
  compressedSize : Nat
  uncompressedSize : Nat
deriving DecidableEq

/-- Modelled from the spec: RowGroupMetadata (§3): ordered column chunks
plus the group's row count. -/
structure RowGroupMeta where
  numRows : Nat
  columns : List ColumnChunkMeta
deriving DecidableEq

/-- Modelled from the spec: FileMetadata (§3): an ordered sequence of
row-group metadata, immutable once parsed. -/
structure FileMetadata where
  rowGroups : List RowGroupMeta
deriving DecidableEq

/-! ## Metadata Inspector (spec §4.1, module `zn_perf::metadata`) -/

/-- Add `sz` to the entry of `nm` in a name-to-size mapping kept as an
association list in first-seen order; append a new entry if absent. -/
def addSize : List (String × Nat) → String → Nat → List (String × Nat)
  | [], nm, sz => [(nm, sz)]
  | (n, s) :: rest, nm, sz =>
      if n = nm then (n, s + sz) :: rest else (n, s) :: addSize rest nm sz

/-- Fold the column chunks (in footer order) into the name-to-size mapping,
keeping a chunk iff its logical type is textual and its name is not
`@timestamp`. -/
def textColumnsAux : List (String × Nat) → List ColumnChunkMeta → List (String × Nat)
  | acc, [] => acc
  | acc, c :: rest =>
      textColumnsAux
        (if c.logicalType.isTextual = true ∧ c.name ≠ "@timestamp"
          then addSize acc c.name c.uncompressedSize else acc) rest

/-- Modelled from the spec: `zn_perf::metadata::text_columns` (§4.1 derived
operation `textColumns`): for each column across all row groups, sum
`uncompressedSize` if the column's logical type is textual and the name is
not `@timestamp`; mapping iteration order follows first-seen column order
in the footer. -/
def metadata.text_columns (md : FileMetadata) : List (String × Nat) :=
  textColumnsAux [] ((md.rowGroups.map RowGroupMeta.columns).flatten)

/-- Sum of the sizes recorded for name `nm` in an association list
(coincides with the unique entry when keys are distinct). -/
def entrySum : List (String × Nat) → String → Nat
  | [], _ => 0
  | (n, s) :: rest, nm => (if n = nm then s else 0) + entrySum rest nm

/-- The size a single chunk contributes to the `text_columns` entry of `nm`. -/
def chunkContrib (nm : String) (c : ColumnChunkMeta) : Nat :=
  if c.logicalType.isTextual = true ∧ c.name ≠ "@timestamp" ∧ c.name = nm
    then c.uncompressedSize else 0

/-- The spec sentence of the size claim, stated as its own definition:
the sum of the `uncompressedSize` metadata values recorded for column `nm`
across all row groups of the file. -/
def columnUncompressedSize (md : FileMetadata) (nm : String) : Nat :=
  (md.rowGroups.map (fun rg =>
    ((rg.columns.filter (fun c => decide (c.name = nm))).map
      ColumnChunkMeta.uncompressedSize).sum)).sum

/-- As `columnUncompressedSize` but restricted to the chunks whose logical
type is textual: non-textual chunks contribute nothing. -/
def textualColumnUncompressedSize (md : FileMetadata) (nm : String) : Nat :=
  (md.rowGroups.map (fun rg =>
    ((rg.columns.filter (fun c => c.logicalType.isTextual && decide (c.name = nm))).map
      ColumnChunkMeta.uncompressedSize).sum)).sum

/-- A sample file metadata used to instantiate the metadata theorems:
two row groups, a textual `log` column, a textual `@timestamp` column
and a non-textual `n` column. -/
def demoMd : FileMetadata :=
  ⟨[⟨2, [⟨"log", .utf8, 10, 3⟩, ⟨"@timestamp", .utf8, 5, 9⟩, ⟨"n", .int64, 4, 4⟩]⟩,
    ⟨1, [⟨"log", .utf8, 8, 4⟩, ⟨"@timestamp", .utf8, 5, 9⟩, ⟨"n", .int64, 2, 2⟩]⟩]⟩

/-! ## Literal substring search (shared helper; spec §1 fixed-substring containment) -/

/-- `leadsWith pat l` tests whether `pat` is an initial segment of `l`
(the starting step of a literal substring search). -/
def leadsWith [DecidableEq α] : List α → List α → Bool
  | [], _ => true
  | _ :: _, [] => false
  | a :: pat, b :: l => if a = b then leadsWith pat l else false

/-- `containsSub pat l` tests literal contiguous containment of `pat` in `l`
(case-sensitive, element-exact). -/
def containsSub [DecidableEq α] (pat : List α) : List α → Bool
  | [] => pat.isEmpty
  | b :: l => leadsWith pat (b :: l) || containsSub pat l

/-- The containment property in the words of the spec: `pat` occurs in `l`
as a contiguous subsequence. -/
def IsSubstringOf (pat l : List α) : Prop := ∃ s t, l = s ++ pat ++ t

/-- One step of non-overlapping occurrence counting: the `Nat` argument is
the number of positions still to skip because they lie inside the occurrence
counted last.  Structural in the haystack. -/
def countOccAux [DecidableEq α] (pat : List α) : List α → Nat → Nat
  | [], _ => 0
  | b :: l, 0 =>
      if pat ≠ [] ∧ leadsWith pat (b :: l) = true
        then 1 + countOccAux pat l (pat.length - 1)
        else countOccAux pat l 0
  | _ :: l, k + 1 => countOccAux pat l k

/-- The number of non-overlapping occurrences of `pat` in `l`, scanning left
to right and resuming after the end of each counted occurrence. -/
def countOcc [DecidableEq α] (pat l : List α) : Nat :=
  countOccAux pat l 0

/-! ## Raw Chunk Scanner (spec §4.2, module `zn_perf::file`) -/

/-- Modelled from the spec: the outcome of reading and decompressing one
column chunk's page bytes through the external storage-format reader
(§6): either the decompressed contiguous buffer, or one of the chunk-level
failures of §4.2 (unsupported codec, decompression failure, read failure). -/
inductive ChunkOutcome where
  | bytes (bs : List Nat)
  | unsupportedCodec
  | decompressFail
  | readFail
deriving DecidableEq

/-- Whether the chunk read/decompress step succeeds. -/
def ChunkOutcome.isBytes : ChunkOutcome → Bool
  | .bytes _ => true
  | _ => false

/-- Modelled from the spec: per-column-chunk access provided by the reader
(§4.2 input): the chunk's metadata together with what reading and
decompressing its pages yields. -/
structure ChunkAccess where
  meta : ColumnChunkMeta
  outcome : ChunkOutcome
deriving DecidableEq

/-- The decompressed contiguous buffer of a chunk whose read succeeded. -/
def ChunkAccess.buffer : ChunkAccess → List Nat
  | c => match c.outcome with
    | .bytes bs => bs
    | _ => []

/-- Modelled from the spec: per-row-group access provided by the reader. -/
structure RowGroupAccess where
  columns : List ChunkAccess
deriving DecidableEq

/-- Modelled from the spec: the reader input of §4.2 — per-row-group,
per-column-chunk access to page bytes, metadata already parsed
(`SerializedFileReader` in the bench). -/
structure FileReader where
  rowGroups : List RowGroupAccess
deriving DecidableEq

/-- The typed error produced when reading/decompressing chunk `c` of row
group `idx` fails: `DecodeError` for an unsupported codec or a decompression
failure, `IoError` for a read failure (§4.2, §7); both carry the column name
and the row-group index. -/
def readDecompress (idx : Nat) (c : ChunkAccess) : ZnResult (List Nat) :=
  match c.outcome with
  | .bytes bs => .ok bs
  | .readFail => .error (.IoError c.meta.name idx)
  | _ => .error (.DecodeError c.meta.name idx)

/-- Scan the chunks of row group `idx`: every textual chunk is read,
decompressed into one contiguous buffer and searched; the first failing
chunk aborts the row group with its typed error. -/
def scanRowGroup (idx : Nat) (needle : List Nat) : List ChunkAccess → ZnResult Nat
  | [] => .ok 0
  | c :: rest =>
      if c.meta.logicalType.isTextual = true then
        match readDecompress idx c with
        | .error e => .error e
        | .ok buf =>
            match scanRowGroup idx needle rest with
            | .error e => .error e
            | .ok n => .ok (countOcc needle buf + n)
      else scanRowGroup idx needle rest

/-- Scan the row groups in order, threading the row-group index; the first
failing chunk aborts the whole scan. -/
def scanRowGroups (needle : List Nat) : Nat → List RowGroupAccess → ZnResult Nat
  | _, [] => .ok 0
  | idx, rg :: rest =>
      match scanRowGroup idx needle rg.columns with
      | .error e => .error e
      | .ok n =>
          match scanRowGroups needle (idx + 1) rest with
          | .error e => .error e
          | .ok m => .ok (n + m)

/-- Modelled from the spec: `zn_perf::file::count_occurrences` (§4.2): for
every row group, for every textual column chunk, decompress the chunk's page
bytes into a contiguous buffer and count every non-overlapping occurrence of
the byte needle in the raw bytes; a chunk-level failure aborts the whole
scan with a typed error. -/
def file.count_occurrences (r : FileReader) (needle : List Nat) : ZnResult Nat :=
  scanRowGroups needle 0 r.rowGroups

/-- The first textual chunk of a chunk list whose read/decompress step fails. -/
def firstFailingIn : List ChunkAccess → Option ChunkAccess
  | [] => none
  | c :: rest =>
      if c.meta.logicalType.isTextual = true ∧ c.outcome.isBytes = false
        then some c else firstFailingIn rest

/-- The first failing textual chunk over the row groups, with the index of
the row group it lies in (scan order). -/
def firstFailing : Nat → List RowGroupAccess → Option (Nat × ChunkAccess)
  | _, [] => none
  | idx, rg :: rest =>
      match firstFailingIn rg.columns with
      | some c => some (idx, c)
      | none => firstFailing (idx + 1) rest

/-- The error the scan reports for failing chunk `c` in row group `idx`. -/
def chunkErr (idx : Nat) (c : ChunkAccess) : ZnError :=
  match c.outcome with
  | .readFail => .IoError c.meta.name idx
  | _ => .DecodeError c.meta.name idx

/-- A sample reader used to instantiate the raw-scanner theorems: one row
group with one textual chunk whose decompressed bytes are `[107, 7, 107]`
and one non-textual chunk. -/
def demoReader : FileReader :=
  ⟨[⟨[⟨⟨"log", .utf8, 3, 3⟩, .bytes [107, 7, 107]⟩,
      ⟨⟨"n", .int64, 2, 2⟩, .bytes [0, 1]⟩]⟩]⟩

/-- A sample reader whose second textual chunk fails to decompress, used to
instantiate the error-propagation theorem. -/
def demoFailReader : FileReader :=
  ⟨[⟨[⟨⟨"log", .utf8, 3, 3⟩, .bytes [107]⟩]⟩,
    ⟨[⟨⟨"msg", .utf8, 4, 4⟩, .decompressFail⟩]⟩]⟩

/-! ## Decoded Batch Scanner (spec §4.3, module `zn_perf::arrow`) -/

/-- Modelled from the spec: the data held by one column of a decoded
ColumnarBatch (§3): a textual column holds its nullable string values;
a non-textual column only contributes its row count. -/
inductive ColumnData where
  | text (values : List (Option String))
  | nonText (numRows : Nat)
deriving DecidableEq

/-- Whether the column is textual. -/
def ColumnData.isText : ColumnData → Bool
  | .text _ => true
  | .nonText _ => false

/-- The number of values (rows) the column holds. -/
def ColumnData.len : ColumnData → Nat
  | .text vs => vs.length
  | .nonText n => n

/-- Modelled from the spec: a named column of a decoded batch. -/
structure BatchColumn where
  name : String
  data : ColumnData
deriving DecidableEq

/-- Modelled from the spec: ColumnarBatch (§3): a decoded,
row-count-bounded collection of named typed columns. -/
structure RecordBatch where
  numRows : Nat
  columns : List BatchColumn
deriving DecidableEq

/-- The batch invariant of §3: every column holds exactly `numRows` values. -/
def RecordBatch.wf (b : RecordBatch) : Bool :=
  b.columns.all (fun c => c.data.len == b.numRows)

/-- The invariant lifted to one element of the batch source (an upstream
decode error carries no rows, so it is trivially well formed). -/
def exceptWf : Except ZnError RecordBatch → Bool
  | .ok b => b.wf
  | .error _ => true

/-- Whether a non-null test value matches the needle (literal containment;
null values never match). -/
def valueHit (needle : String) : Option String → Bool
  | none => false
  | some v => containsSub needle.toList v.toList

/-- The number of matching rows a single column contributes: textual
columns count their matching non-null values, non-textual columns
contribute nothing. -/
def columnMatchCount (needle : String) : ColumnData → Nat
  | .text vs => (vs.filter (valueHit needle)).length
  | .nonText _ => 0

/-- Matching rows summed over the columns of one decoded batch. -/
def batchMatchCount (needle : String) (b : RecordBatch) : Nat :=
  (b.columns.map (fun c => columnMatchCount needle c.data)).sum

/-- The batch-by-batch scan: the first upstream decode error aborts the
scan; otherwise the per-batch counts accumulate. -/
def arrowScan (needle : String) : List (Except ZnError RecordBatch) → ZnResult Nat
  | [] => .ok 0
  | b :: rest =>
      match b with
      | .error e => .error e
      | .ok batch =>
          match arrowScan needle rest with
          | .error e => .error e
          | .ok n => .ok (batchMatchCount needle batch + n)

/-- Modelled from the spec: `zn_perf::arrow::count_occurrences` (§4.3): for
each decoded batch, for each textual column, for each non-null value, test
literal substring containment and accumulate a count of matching rows; an
upstream decode failure aborts the scan. -/
def arrow.count_occurrences (batches : List (Except ZnError RecordBatch))
    (needle : String) : ZnResult Nat :=
  arrowScan needle batches

/-- Total row count carried by the batch source (the decode path preserves
the file's row-major count, §2, so this is the total row count across all
row groups of the file). -/
def totalRows (batches : List (Except ZnError RecordBatch)) : Nat :=
  (batches.map (fun x => match x with | .ok b => b.numRows | .error _ => 0)).sum

/-- The number of textual columns of a batch. -/
def textColCount (b : RecordBatch) : Nat :=
  (b.columns.filter (fun c => c.data.isText)).length

/-- The contribution of each value to the row-match count, in the words of
the claim: a null value contributes 0, a non-null value contributes 1 when
the needle occurs in it and 0 otherwise — never more, however many
occurrences the needle has inside the value. -/
def valueIndicator (needle : String) : Option String → Nat
  | none => 0
  | some v => if containsSub needle.toList v.toList = true then 1 else 0

/-- The row-match count in the words of the claim: over every batch, every
textual column and every value, sum the per-value indicator. -/
def specRowMatchCount (needle : String) (bs : List RecordBatch) : Nat :=
  (bs.map (fun b => (b.columns.map (fun c =>
    match c.data with
    | .text vs => (vs.map (valueIndicator needle)).sum
    | .nonText _ => 0)).sum)).sum

/-- A sample decoded batch with two textual columns and a single row whose
value in both columns contains the needle `"k"`. -/
def demoBatchTwoCols : RecordBatch :=
  ⟨1, [⟨"a", .text [some "xkx"]⟩, ⟨"b", .text [some "kk"]⟩]⟩

/-- A sample decoded batch with one textual column (values as in the spec's
concrete scenario), one non-textual column and a null. -/
def demoBatchLog : RecordBatch :=
  ⟨4, [⟨"log", .text [some "k8s pod started", some "no match here",
                      some "k8s pod stopped", none]⟩,
       ⟨"n", .nonText 4⟩]⟩

/-! ## Metadata Inspector footer parse (spec §4.1 `classify`) -/

/-- The footer magic marker of the storage format's framing. -/
def MAGIC : List Nat := [80, 65, 82, 49]

/-- Modelled from the spec: extraction of the footer payload from the raw
file bytes (§4.1).  The on-disk layout itself belongs to the external
storage-format collaborator (§6); what the spec fixes is that the footer is
framed (trailing magic marker and payload length) and protected by an
internal checksum, and that an absent, truncated or checksum-failing footer
is rejected.  The model frames the footer as
`... payload ++ [checksum, length] ++ MAGIC` with the checksum the payload
sum modulo 256; `none` is returned exactly when the footer is absent (no
trailing magic, file too short), truncated (length exceeds the bytes
present) or corrupt (checksum mismatch). -/
def extractFooter (bytes : List Nat) : Option (List Nat) :=
  match bytes.reverse with
  | m1 :: m2 :: m3 :: m4 :: len :: cks :: restRev =>
      if [m4, m3, m2, m1] = MAGIC then
        if len ≤ restRev.length then
          let payload := (restRev.take len).reverse
          if payload.sum % 256 = cks then some payload else none
        else none
      else none
  | _ => none

/-- Modelled from the spec: `classify(file) -> FileMetadata` (§4.1).  The
thrift-style decoding of the payload into FileMetadata is the external
collaborator's (§6) and is passed in as `decode`; a missing/truncated/
corrupt footer and an undecodable payload are both reported as
`FormatError` — never a panic, never an empty-but-successful result. -/
def metadata.classify (decode : List Nat → Option FileMetadata)
    (bytes : List Nat) : ZnResult FileMetadata :=
  match extractFooter bytes with
  | none => .error (.FormatError "invalid footer")
  | some payload =>
      match decode payload with
      | none => .error (.FormatError "corrupt footer payload")
      | some md => .ok md

/-! ## Engine-Integrated Matcher (spec §4.4, module `zn_perf::match_udf`) -/

/-- Modelled from the spec: the scalar function `matches(v, n)` of §4.4:
`true` iff `v` is non-null and contains `n` as a contiguous substring
(case-sensitive, exact); null propagates to null. -/
def match_udf.matches (v : Option String) (n : String) : Option Bool :=
  match v with
  | none => none
  | some s => some (containsSub n.toList s.toList)

/-- Modelled from the spec: the row-wise evaluation routine behind the
registered function: exactly two arguments; a wrong argument count is a
plan-time `TypeError`, not a per-row failure (§4.4); a null needle
propagates to null. -/
def match_udf.udfEval : List (Option String) → ZnResult (Option Bool)
  | [v, n] =>
      match n with
      | some needle => .ok (match_udf.matches v needle)
      | none => .ok none
  | _ => .error (.TypeError "str_match expects exactly 2 arguments")

/-- Modelled from the spec: a registered scalar function of the engine's
function catalog (§6): a stable name, an arity and the evaluation routine. -/
structure ScalarUDF where
  name : String
  arity : Nat
  eval : List (Option String) → ZnResult (Option Bool)

/-- Modelled from the spec + `benches/it.rs` lines 202–233: the matcher is
registered under the stable name `str_match` with exactly two arguments
(`match_udf::MATCH_UDF`, registered via `ctx.register_udf` and invoked in
SQL as `str_match("col", 'needle')`). -/
def match_udf.MATCH_UDF : ScalarUDF :=
  ⟨"str_match", 2, match_udf.udfEval⟩

/-- Modelled from the spec: registering a function into the engine's
catalog (`SessionContext::register_udf`); a later registration of the same
name shadows an earlier one. -/
def register_udf (cat : List ScalarUDF) (u : ScalarUDF) : List ScalarUDF :=
  u :: cat

/-- Catalog lookup by function name (most recent registration wins). -/
def lookup_udf (cat : List ScalarUDF) (nm : String) : Option ScalarUDF :=
  cat.find? (fun u => u.name == nm)

/-- Modelled from the spec: planning a scalar function call inside a filter
expression succeeds iff the name resolves in the catalog and the argument
count equals the registered arity (§4.4 plan-time checking). -/
def plan_scalar_call (cat : List ScalarUDF) (nm : String) (argc : Nat) : Bool :=
  match lookup_udf cat nm with
  | some u => u.arity == argc
  | none => false

/-! ## Substring search lemmas -/

theorem leadsWith_iff [DecidableEq α] (pat l : List α) :
    leadsWith pat l = true ↔ ∃ t, l = pat ++ t := by
  induction pat generalizing l with
  | nil => simp [leadsWith]
  | cons a pat ih =>
    cases l with
    | nil =>
      simp only [leadsWith, Bool.false_eq_true, false_iff]
      rintro ⟨t, ht⟩
      cases ht
    | cons b l =>
      by_cases hab : a = b
      · subst hab
        simp [leadsWith, ih]
      · simp only [leadsWith, if_neg hab, Bool.false_eq_true, false_iff]
        rintro ⟨t, ht⟩
        rw [List.cons_append] at ht
        exact hab (List.cons.inj ht).1.symm

theorem containsSub_iff [DecidableEq α] (pat l : List α) :
    containsSub pat l = true ↔ IsSubstringOf pat l := by
  induction l with
  | nil =>
    simp only [containsSub, List.isEmpty_iff, IsSubstringOf]
    constructor
    · rintro rfl
      exact ⟨[], [], rfl⟩
    · rintro ⟨s, t, ht⟩
      rcases List.append_eq_nil.mp ht.symm with ⟨hsp, -⟩
      exact (List.append_eq_nil.mp hsp).2
  | cons b l ih =>
    simp only [containsSub, Bool.or_eq_true, leadsWith_iff, ih, IsSubstringOf]
    constructor
    · rintro (⟨t, ht⟩ | ⟨s, t, ht⟩)
      · exact ⟨[], t, by simpa using ht⟩
      · exact ⟨b :: s, t, by simp [ht]⟩
    · rintro ⟨s, t, ht⟩
      cases s with
      | nil => exact Or.inl ⟨t, by simpa using ht⟩
      | cons x s =>
        have hx : b = x ∧ l = s ++ pat ++ t := by simpa using ht
        exact Or.inr ⟨s, t, hx.2⟩

/-! ## Claim theorems: Engine-Integrated Matcher -/

/-- Claim C2: for every text value `v` and needle `n`, the scalar function
`matches(v, n)` returns true iff `v` is non-null and contains `n` as a
contiguous, case-sensitive, exact substring; `matches(null, n)` is null;
in particular `matches("", "")` is true, `matches("abc", "bc")` is true and
`matches("abc", "bcd")` is false. -/
theorem matches_semantics (v n : String) :
    match_udf.matches none n = none ∧
    (match_udf.matches (some v) n = some true ↔ IsSubstringOf n.toList v.toList) ∧
    match_udf.matches (some "") "" = some true ∧
    match_udf.matches (some "abc") "bc" = some true ∧
    match_udf.matches (some "abc") "bcd" = some false := by
  refine ⟨rfl, ?_, by decide, by decide, by decide⟩
  simp [match_udf.matches, containsSub_iff]

/-! ## Metadata Inspector lemmas -/

/-- The keys of a name-to-size mapping. -/
def keysOf (l : List (String × Nat)) : List String := l.map Prod.fst

theorem addSize_mem (acc : List (String × Nat)) (nm : String) (sz : Nat)
    (p : String × Nat) (hp : p ∈ addSize acc nm sz) : p ∈ acc ∨ p.1 = nm := by
  induction acc with
  | nil =>
    simp only [addSize, List.mem_singleton] at hp
    exact Or.inr (by rw [hp])
  | cons a rest ih =>
    obtain ⟨n, s⟩ := a
    simp only [addSize] at hp
    by_cases h : n = nm
    · rw [if_pos h] at hp
      rcases List.mem_cons.mp hp with h1 | h1
      · exact Or.inr (by rw [h1, h])
      · exact Or.inl (List.mem_cons_of_mem _ h1)
    · rw [if_neg h] at hp
      rcases List.mem_cons.mp hp with h1 | h1
      · exact Or.inl (h1 ▸ List.mem_cons_self _ _)
      · rcases ih h1 with h2 | h2
        · exact Or.inl (List.mem_cons_of_mem _ h2)
        · exact Or.inr h2

theorem textColumnsAux_mem (l : List ColumnChunkMeta) (acc : List (String × Nat))
    (p : String × Nat) (hp : p ∈ textColumnsAux acc l) :
    p ∈ acc ∨ ∃ c ∈ l, c.name = p.1 ∧ c.logicalType.isTextual = true ∧
      c.name ≠ "@timestamp" := by
  induction l generalizing acc with
  | nil => exact Or.inl hp
  | cons c rest ih =>
    simp only [textColumnsAux] at hp
    rcases ih _ hp with h1 | ⟨d, hd, hprop⟩
    · by_cases hsel : c.logicalType.isTextual = true ∧ c.name ≠ "@timestamp"
      · rw [if_pos hsel] at h1
        rcases addSize_mem _ _ _ _ h1 with h2 | h2
        · exact Or.inl h2
        · exact Or.inr ⟨c, List.mem_cons_self _ _, h2.symm, hsel.1, hsel.2⟩
      · rw [if_neg hsel] at h1
        exact Or.inl h1
    · exact Or.inr ⟨d, List.mem_cons_of_mem _ hd, hprop⟩

/-- Any entry of `text_columns` comes from a selected chunk, whose name is
never the deny-listed `@timestamp`. -/
theorem mem_text_columns_name_ne (md : FileMetadata) (p : String × Nat)
    (hp : p ∈ metadata.text_columns md) : p.1 ≠ "@timestamp" := by
  rcases textColumnsAux_mem _ _ _ hp with h | ⟨c, -, hn, -, hne⟩
  · cases h
  · exact hn ▸ hne

theorem entrySum_addSize (acc : List (String × Nat)) (nm m : String) (sz : Nat) :
    entrySum (addSize acc nm sz) m = entrySum acc m + (if nm = m then sz else 0) := by
  induction acc with
  | nil => simp [addSize, entrySum]
  | cons a rest ih =>
    obtain ⟨n, s⟩ := a
    simp only [addSize]
    by_cases h : n = nm
    · subst h
      rw [if_pos rfl]
      simp only [entrySum]
      by_cases hm : n = m
      · rw [if_pos hm, if_pos hm, if_pos hm]
        omega
      · rw [if_neg hm, if_neg hm, if_neg hm]
        omega
    · rw [if_neg h]
      simp only [entrySum, ih, Nat.add_assoc]

theorem entrySum_textColumnsAux (l : List ColumnChunkMeta)
    (acc : List (String × Nat)) (m : String) :
    entrySum (textColumnsAux acc l) m = entrySum acc m + (l.map (chunkContrib m)).sum := by
  induction l generalizing acc with
  | nil => simp [textColumnsAux]
  | cons c rest ih =>
    simp only [textColumnsAux, List.map_cons, List.sum_cons]
    rw [ih]
    by_cases hsel : c.logicalType.isTextual = true ∧ c.name ≠ "@timestamp"
    · rw [if_pos hsel, entrySum_addSize]
      simp only [chunkContrib]
      by_cases hm : c.name = m
      · rw [if_pos hm, if_pos ⟨hsel.1, hsel.2, hm⟩]
        omega
      · rw [if_neg hm, if_neg (by tauto)]
        omega
    · rw [if_neg hsel]
      simp only [chunkContrib]
      rw [if_neg (by tauto)]
      omega

theorem mem_keys_addSize (acc : List (String × Nat)) (nm : String) (sz : Nat)
    (m : String) : m ∈ keysOf (addSize acc nm sz) ↔ m ∈ keysOf acc ∨ m = nm := by
  induction acc with
  | nil => simp [addSize, keysOf]
  | cons a rest ih =>
    obtain ⟨n, s⟩ := a
    simp only [addSize]
    by_cases h : n = nm
    · subst h
      rw [if_pos rfl]
      simp only [keysOf, List.map_cons, List.mem_cons]
      tauto
    · rw [if_neg h]
      simp only [keysOf, List.map_cons, List.mem_cons] at ih ⊢
      tauto

theorem nodup_keys_addSize (acc : List (String × Nat)) (nm : String) (sz : Nat)
    (h : (keysOf acc).Nodup) : (keysOf (addSize acc nm sz)).Nodup := by
  induction acc with
  | nil => simp [addSize, keysOf]
  | cons a rest ih =>
    obtain ⟨n, s⟩ := a
    simp only [keysOf, List.map_cons, List.nodup_cons] at h
    by_cases hn : n = nm
    · rw [show addSize ((n, s) :: rest) nm sz = (n, s + sz) :: rest from by
        simp [addSize, hn]]
      simp only [keysOf, List.map_cons, List.nodup_cons]
      exact ⟨h.1, h.2⟩
    · simp only [addSize, if_neg hn, keysOf, List.map_cons, List.nodup_cons]
      refine ⟨?_, ih h.2⟩
      rw [show (addSize rest nm sz).map Prod.fst = keysOf (addSize rest nm sz) from rfl,
        mem_keys_addSize]
      rintro (hmem | rfl)
      · exact h.1 hmem
      · exact hn rfl

theorem nodup_keys_textColumnsAux (l : List ColumnChunkMeta)
    (acc : List (String × Nat)) (h : (keysOf acc).Nodup) :
    (keysOf (textColumnsAux acc l)).Nodup := by
  induction l generalizing acc with
  | nil => exact h
  | cons c rest ih =>
    simp only [textColumnsAux]
    by_cases hsel : c.logicalType.isTextual = true ∧ c.name ≠ "@timestamp"
    · rw [if_pos hsel]
      exact ih _ (nodup_keys_addSize _ _ _ h)
    · rw [if_neg hsel]
      exact ih _ h

theorem entrySum_of_not_mem (l : List (String × Nat)) (nm : String)
    (h : nm ∉ keysOf l) : entrySum l nm = 0 := by
  induction l with
  | nil => rfl
  | cons a rest ih =>
    obtain ⟨n, s⟩ := a
    simp only [keysOf, List.map_cons, List.mem_cons, not_or] at h
    simp only [entrySum]
    rw [if_neg (fun hh => h.1 hh.symm), ih (by simpa [keysOf] using h.2)]

theorem entrySum_of_mem (l : List (String × Nat)) (nm : String) (sz : Nat)
    (hnd : (keysOf l).Nodup) (hm : (nm, sz) ∈ l) : entrySum l nm = sz := by
  induction l with
  | nil => cases hm
  | cons a rest ih =>
    obtain ⟨n, s⟩ := a
    simp only [keysOf, List.map_cons, List.nodup_cons] at hnd
    rcases List.mem_cons.mp hm with h1 | h1
    · obtain ⟨rfl, rfl⟩ := Prod.mk.injEq nm sz n s ▸ h1
      simp [entrySum, entrySum_of_not_mem rest nm hnd.1]
    · have hne : n ≠ nm := by
        intro hcontra
        exact hnd.1 (hcontra ▸ List.mem_map_of_mem Prod.fst h1)
      simp [entrySum, if_neg hne, ih hnd.2 h1]

theorem sum_map_flatten (f : α → Nat) (L : List (List α)) :
    ((L.flatten).map f).sum = (L.map (fun l => (l.map f).sum)).sum := by
  induction L with
  | nil => rfl
  | cons l L ih =>
    rw [List.flatten_cons, List.map_append, List.sum_append, ih,
      List.map_cons, List.sum_cons]

theorem sum_map_congr (l : List α) (f g : α → Nat) (h : ∀ a ∈ l, f a = g a) :
    (l.map f).sum = (l.map g).sum := by
  induction l with
  | nil => rfl
  | cons a rest ih =>
    simp only [List.map_cons, List.sum_cons]
    rw [h a (List.mem_cons_self _ _), ih (fun b hb => h b (List.mem_cons_of_mem _ hb))]

theorem chunkContrib_sum_textual (nm : String) (cols : List ColumnChunkMeta)
    (hnm : nm ≠ "@timestamp") :
    (cols.map (chunkContrib nm)).sum =
      ((cols.filter (fun c => c.logicalType.isTextual && decide (c.name = nm))).map
        ColumnChunkMeta.uncompressedSize).sum := by
  induction cols with
  | nil => rfl
  | cons c rest ih =>
    simp only [List.map_cons, List.sum_cons]
    by_cases hname : c.name = nm
    · by_cases htex : c.logicalType.isTextual = true
      · rw [show chunkContrib nm c = c.uncompressedSize from by
          simp [chunkContrib, htex, hname, hnm]]
        rw [show (c :: rest).filter
            (fun c => c.logicalType.isTextual && decide (c.name = nm))
            = c :: rest.filter (fun c => c.logicalType.isTextual && decide (c.name = nm)) from by
          simp [List.filter_cons, htex, hname]]
        simp [ih]
      · rw [show chunkContrib nm c = 0 from by simp [chunkContrib]; tauto]
        rw [show (c :: rest).filter
            (fun c => c.logicalType.isTextual && decide (c.name = nm))
            = rest.filter (fun c => c.logicalType.isTextual && decide (c.name = nm)) from by
          simp only [List.filter_cons]
          rw [if_neg (by simp [htex])]]
        simp [ih]
    · rw [show chunkContrib nm c = 0 from by simp [chunkContrib]; tauto]
      rw [show (c :: rest).filter
          (fun c => c.logicalType.isTextual && decide (c.name = nm))
          = rest.filter (fun c => c.logicalType.isTextual && decide (c.name = nm)) from by
        simp only [List.filter_cons]
        rw [if_neg (by simp [hname])]]
      simp [ih]

theorem chunkContrib_sum_all (nm : String) (cols : List ColumnChunkMeta)
    (hnm : nm ≠ "@timestamp")
    (htype : ∀ c ∈ cols, c.name = nm → c.logicalType.isTextual = true) :
    (cols.map (chunkContrib nm)).sum =
      ((cols.filter (fun c => decide (c.name = nm))).map
        ColumnChunkMeta.uncompressedSize).sum := by
  induction cols with
  | nil => rfl
  | cons c rest ih =>
    have hrest := ih (fun d hd => htype d (List.mem_cons_of_mem _ hd))
    simp only [List.map_cons, List.sum_cons]
    by_cases hname : c.name = nm
    · have htex := htype c (List.mem_cons_self _ _) hname
      rw [show chunkContrib nm c = c.uncompressedSize from by
        simp [chunkContrib, htex, hname, hnm]]
      rw [show (c :: rest).filter (fun c => decide (c.name = nm))
          = c :: rest.filter (fun c => decide (c.name = nm)) from by
        simp [List.filter_cons, hname]]
      simp [hrest]
    · rw [show chunkContrib nm c = 0 from by simp [chunkContrib]; tauto]
      rw [show (c :: rest).filter (fun c => decide (c.name = nm))
          = rest.filter (fun c => decide (c.name = nm)) from by
        simp only [List.filter_cons]
        rw [if_neg (by simp [hname])]]
      simp [hrest]

/-! ## Claim theorems: Metadata Inspector -/

/-- Claim C1: for every file, the mapping returned by `text_columns` never
contains an entry whose column name is the literal string `@timestamp`,
regardless of that column's declared logical type. -/
theorem text_columns_no_timestamp (md : FileMetadata) (p : String × Nat)
    (hp : p ∈ metadata.text_columns md) : p.1 ≠ "@timestamp" :=
  mem_text_columns_name_ne md p hp

/-- Witness for C1 on a concrete file whose `@timestamp` column is textual:
the mapping contains only `log`, and its name is not `@timestamp`. -/
theorem text_columns_no_timestamp_witness :
    ("log", 7) ∈ metadata.text_columns demoMd ∧ "log" ≠ "@timestamp" :=
  ⟨by decide, text_columns_no_timestamp demoMd ("log", 7) (by decide)⟩

/-- Claim C6: every entry `(nm, sz)` of `text_columns` reports as `sz`
the sum of the textual chunks' `uncompressedSize` for column `nm` across
all row groups — non-textual chunks contribute nothing — and, under the
§3 invariant that the column's chunks carry the same (textual) logical
type in every row group, `sz` equals the plain sum of that column's
`uncompressedSize` metadata values across all row groups of the file. -/
theorem text_columns_size (md : FileMetadata) (nm : String) (sz : Nat)
    (hmem : (nm, sz) ∈ metadata.text_columns md)
    (htype : ∀ rg ∈ md.rowGroups, ∀ c ∈ rg.columns, c.name = nm →
      c.logicalType.isTextual = true) :
    sz = textualColumnUncompressedSize md nm ∧
    sz = columnUncompressedSize md nm := by
  have hnm : nm ≠ "@timestamp" := mem_text_columns_name_ne md (nm, sz) hmem
  have hnd : (keysOf (metadata.text_columns md)).Nodup :=
    nodup_keys_textColumnsAux _ _ (by simp [keysOf])
  have h1 : entrySum (metadata.text_columns md) nm = sz :=
    entrySum_of_mem _ _ _ hnd hmem
  have h2 : entrySum (metadata.text_columns md) nm =
      (((md.rowGroups.map RowGroupMeta.columns).flatten).map (chunkContrib nm)).sum := by
    rw [metadata.text_columns, entrySum_textColumnsAux]
    simp [entrySum]
  have hflat : (((md.rowGroups.map RowGroupMeta.columns).flatten).map (chunkContrib nm)).sum
      = (md.rowGroups.map (fun rg => ((rg.columns.map (chunkContrib nm))).sum)).sum := by
    rw [sum_map_flatten, List.map_map]
    rfl
  constructor
  · rw [← h1, h2, hflat, textualColumnUncompressedSize]
    exact sum_map_congr _ _ _ (fun rg _ => chunkContrib_sum_textual nm rg.columns hnm)
  · rw [← h1, h2, hflat, columnUncompressedSize]
    exact sum_map_congr _ _ _
      (fun rg hrg => chunkContrib_sum_all nm rg.columns hnm (htype rg hrg))

/-- Witness for C6 on the concrete file: the reported size of `log` is 7,
which is both the textual-chunk sum and the plain per-column sum. -/
theorem text_columns_size_witness :
    ("log", 7) ∈ metadata.text_columns demoMd ∧
    (7 = textualColumnUncompressedSize demoMd "log" ∧
     7 = columnUncompressedSize demoMd "log") :=
  ⟨by decide, text_columns_size demoMd "log" 7 (by decide) (by decide)⟩

/-! ## Raw Chunk Scanner lemmas -/

theorem scanRowGroup_ok (idx : Nat) (needle : List Nat) (cols : List ChunkAccess)
    (h : ∀ c ∈ cols, c.meta.logicalType.isTextual = true → c.outcome.isBytes = true) :
    scanRowGroup idx needle cols =
      .ok (((cols.filter (fun c => c.meta.logicalType.isTextual)).map
        (fun c => countOcc needle c.buffer)).sum) := by
  induction cols with
  | nil => rfl
  | cons c rest ih =>
    have hrest := ih (fun d hd => h d (List.mem_cons_of_mem _ hd))
    by_cases htex : c.meta.logicalType.isTextual = true
    · have hb := h c (List.mem_cons_self _ _) htex
      obtain ⟨bs, hbs⟩ : ∃ bs, c.outcome = ChunkOutcome.bytes bs := by
        cases hco : c.outcome
        · exact ⟨_, rfl⟩
        all_goals simp [ChunkOutcome.isBytes, hco] at hb
      simp only [scanRowGroup, if_pos htex, readDecompress, hbs, hrest]
      simp [List.filter_cons, htex, ChunkAccess.buffer, hbs]
    · simp only [scanRowGroup, if_neg htex, hrest]
      congr 1
      simp [List.filter_cons, htex]

theorem scanRowGroups_ok (needle : List Nat) (rgs : List RowGroupAccess) (idx : Nat)
    (h : ∀ rg ∈ rgs, ∀ c ∈ rg.columns,
      c.meta.logicalType.isTextual = true → c.outcome.isBytes = true) :
    scanRowGroups needle idx rgs =
      .ok ((rgs.map (fun rg =>
        ((rg.columns.filter (fun c => c.meta.logicalType.isTextual)).map
          (fun c => countOcc needle c.buffer)).sum)).sum) := by
  induction rgs generalizing idx with
  | nil => rfl
  | cons rg rest ih =>
    simp only [scanRowGroups]
    rw [scanRowGroup_ok idx needle rg.columns (h rg (List.mem_cons_self _ _)),
      ih (idx + 1) (fun g hg => h g (List.mem_cons_of_mem _ hg))]
    simp

theorem firstFailingIn_none (cols : List ChunkAccess) (h : firstFailingIn cols = none) :
    ∀ c ∈ cols, c.meta.logicalType.isTextual = true → c.outcome.isBytes = true := by
  induction cols with
  | nil => intro c hc; cases hc
  | cons d rest ih =>
    simp only [firstFailingIn] at h
    by_cases hd : d.meta.logicalType.isTextual = true ∧ d.outcome.isBytes = false
    · rw [if_pos hd] at h; cases h
    · rw [if_neg hd] at h
      intro c hc htex
      rcases List.mem_cons.mp hc with rfl | hc2
      · by_contra hb
        exact hd ⟨htex, by simpa using hb⟩
      · exact ih h c hc2 htex

theorem scanRowGroup_err (idx : Nat) (needle : List Nat) (cols : List ChunkAccess)
    (c : ChunkAccess) (h : firstFailingIn cols = some c) :
    scanRowGroup idx needle cols = .error (chunkErr idx c) := by
  induction cols with
  | nil => cases h
  | cons d rest ih =>
    simp only [firstFailingIn] at h
    by_cases hd : d.meta.logicalType.isTextual = true ∧ d.outcome.isBytes = false
    · rw [if_pos hd] at h
      injection h with h
      subst h
      cases hco : d.outcome
      · simp [ChunkOutcome.isBytes, hco] at hd
      all_goals simp [scanRowGroup, hd.1, readDecompress, hco, chunkErr]
    · rw [if_neg hd] at h
      have hrest := ih h
      by_cases htex : d.meta.logicalType.isTextual = true
      · have hb : d.outcome.isBytes = true := by
          by_contra hb
          exact hd ⟨htex, by simpa using hb⟩
        obtain ⟨bs, hbs⟩ : ∃ bs, d.outcome = ChunkOutcome.bytes bs := by
          cases hco : d.outcome
          · exact ⟨_, rfl⟩
          all_goals simp [ChunkOutcome.isBytes, hco] at hb
        simp [scanRowGroup, htex, readDecompress, hbs, hrest]
      · simp [scanRowGroup, htex, hrest]

theorem scanRowGroups_err (needle : List Nat) (rgs : List RowGroupAccess)
    (idx i : Nat) (c : ChunkAccess) (h : firstFailing idx rgs = some (i, c)) :
    scanRowGroups needle idx rgs = .error (chunkErr i c) := by
  induction rgs generalizing idx with
  | nil => cases h
  | cons rg rest ih =>
    simp only [firstFailing] at h
    cases hin : firstFailingIn rg.columns with
    | some d =>
        rw [hin] at h
        injection h with h
        obtain ⟨rfl, rfl⟩ : idx = i ∧ d = c := Prod.mk.injEq idx d i c ▸ h
        simp [scanRowGroups, scanRowGroup_err idx needle rg.columns d hin]
    | none =>
        rw [hin] at h
        simp only [scanRowGroups,
          scanRowGroup_ok idx needle rg.columns (firstFailingIn_none rg.columns hin),
          ih (idx + 1) h]

/-! ## Claim theorems: Raw Chunk Scanner -/

/-- Claim C3: when every textual chunk reads and decompresses successfully,
`count_occurrences` visits every row group and, within it, every textual
column chunk, and returns the total over all of them of the number of
non-overlapping occurrences of the byte needle in each chunk's decompressed
contiguous buffer (byte-level occurrences, not row-level matches). -/
theorem file_count_occurrences_total (r : FileReader) (needle : List Nat)
    (h : ∀ rg ∈ r.rowGroups, ∀ c ∈ rg.columns,
      c.meta.logicalType.isTextual = true → c.outcome.isBytes = true) :
    file.count_occurrences r needle =
      .ok ((r.rowGroups.map (fun rg =>
        ((rg.columns.filter (fun c => c.meta.logicalType.isTextual)).map
          (fun c => countOcc needle c.buffer)).sum)).sum) :=
  scanRowGroups_ok needle r.rowGroups 0 h

/-- Witness for C3 on the concrete reader: the needle `[107]` occurs twice
in the single textual chunk's decompressed bytes `[107, 7, 107]`. -/
theorem file_count_occurrences_total_witness :
    (∀ rg ∈ demoReader.rowGroups, ∀ c ∈ rg.columns,
      c.meta.logicalType.isTextual = true → c.outcome.isBytes = true) ∧
    file.count_occurrences demoReader [107] = .ok 2 := by
  refine ⟨by decide, ?_⟩
  rw [file_count_occurrences_total demoReader [107] (by decide)]
  rfl

/-- Claim C8: if some textual chunk step fails (unsupported codec,
decompression failure or read failure), the whole scan returns a typed
error — no partial count — and the error carries the failing column's name
and its row-group index. -/
theorem file_count_occurrences_error_context (r : FileReader) (needle : List Nat)
    (i : Nat) (c : ChunkAccess) (h : firstFailing 0 r.rowGroups = some (i, c)) :
    ∃ e, file.count_occurrences r needle = .error e ∧
      e.column = some c.meta.name ∧ e.rowGroupIdx = some i ∧
      ∀ n, file.count_occurrences r needle ≠ .ok n := by
  have herr : file.count_occurrences r needle = .error (chunkErr i c) :=
    scanRowGroups_err needle r.rowGroups 0 i c h
  refine ⟨chunkErr i c, herr, ?_, ?_, ?_⟩
  · cases hco : c.outcome <;> simp [chunkErr, hco, ZnError.column]
  · cases hco : c.outcome <;> simp [chunkErr, hco, ZnError.rowGroupIdx]
  · intro n hcontra
    rw [herr] at hcontra
    cases hcontra

/-- Witness for C8 on the concrete failing reader: the chunk of column
`msg` in row group 1 fails to decompress and the scan reports exactly
that context. -/
theorem file_count_occurrences_error_context_witness :
    firstFailing 0 demoFailReader.rowGroups
      = some (1, ⟨⟨"msg", .utf8, 4, 4⟩, .decompressFail⟩) ∧
    ∃ e, file.count_occurrences demoFailReader [107] = .error e ∧
      e.column = some "msg" ∧ e.rowGroupIdx = some 1 ∧
      ∀ n, file.count_occurrences demoFailReader [107] ≠ .ok n :=
  ⟨by decide, file_count_occurrences_error_context demoFailReader [107] 1
    ⟨⟨"msg", .utf8, 4, 4⟩, .decompressFail⟩ (by decide)⟩

/-! ## Claim theorems: Metadata Inspector footer errors -/

/-- Claim C7: for every input byte source whose footer is absent, truncated
or corrupt (either the framing/checksum check or the payload decode
rejects it), `classify` returns a typed `FormatError` — it never returns a
successful (e.g. empty) metadata result, and as a total function it cannot
panic. -/
theorem classify_format_error (decode : List Nat → Option FileMetadata)
    (bytes : List Nat)
    (h : extractFooter bytes = none ∨
      ∃ p, extractFooter bytes = some p ∧ decode p = none) :
    (∃ m, metadata.classify decode bytes = .error (.FormatError m)) ∧
    ∀ md, metadata.classify decode bytes ≠ .ok md := by
  rcases h with h | ⟨p, hp, hd⟩
  · refine ⟨⟨"invalid footer", by simp [metadata.classify, h]⟩, ?_⟩
    intro md hmd
    simp [metadata.classify, h] at hmd
  · refine ⟨⟨"corrupt footer payload", by simp [metadata.classify, hp, hd]⟩, ?_⟩
    intro md hmd
    simp [metadata.classify, hp, hd] at hmd

/-- Witness for C7 on a concrete byte source with no footer at all. -/
theorem classify_format_error_witness :
    extractFooter ([] : List Nat) = none ∧
    ((∃ m, metadata.classify (fun _ => none) [] = .error (.FormatError m)) ∧
      ∀ md, metadata.classify (fun _ => none) [] ≠ .ok md) :=
  ⟨by decide, classify_format_error (fun _ => none) [] (Or.inl (by decide))⟩

/-! ## Decoded Batch Scanner lemmas -/

theorem length_filter_eq_sum (vs : List (Option String)) (needle : String) :
    (vs.filter (valueHit needle)).length = (vs.map (valueIndicator needle)).sum := by
  induction vs with
  | nil => rfl
  | cons v rest ih =>
    cases v with
    | none => simp [valueHit, valueIndicator, List.filter_cons, ih]
    | some s =>
      by_cases h : containsSub needle.data s.data = true
      · simp [valueHit, valueIndicator, List.filter_cons, h, ih]
        omega
      · have h2 : containsSub needle.data s.data = false := by
          simpa using h
        simp [valueHit, valueIndicator, List.filter_cons, h2, ih]

theorem batchMatchCount_spec (needle : String) (b : RecordBatch) :
    batchMatchCount needle b = (b.columns.map (fun c =>
      match c.data with
      | .text vs => (vs.map (valueIndicator needle)).sum
      | .nonText _ => 0)).sum := by
  refine sum_map_congr _ _ _ (fun c _ => ?_)
  cases hd : c.data with
  | text vs => simp [columnMatchCount, hd, length_filter_eq_sum]
  | nonText m => simp [columnMatchCount, hd]

theorem arrowScan_spec (needle : String) (batches : List (Except ZnError RecordBatch))
    (n : Nat) (hok : arrowScan needle batches = .ok n) :
    ∃ bs : List RecordBatch, batches = bs.map Except.ok ∧
      n = specRowMatchCount needle bs := by
  induction batches generalizing n with
  | nil =>
    injection hok with h
    exact ⟨[], rfl, by simp [specRowMatchCount, ← h]⟩
  | cons x rest ih =>
    cases x with
    | error e => simp [arrowScan] at hok
    | ok b =>
      simp only [arrowScan] at hok
      cases hr : arrowScan needle rest with
      | error e => rw [hr] at hok; cases hok
      | ok m =>
        rw [hr] at hok
        injection hok with hok
        obtain ⟨bs, rfl, hm⟩ := ih m hr
        refine ⟨b :: bs, rfl, ?_⟩
        simp only [specRowMatchCount, List.map_cons, List.sum_cons] at hm ⊢
        rw [← hok, hm, batchMatchCount_spec]

theorem colsMatchCount_le (needle : String) (n : Nat) (cols : List BatchColumn)
    (h : ∀ c ∈ cols, c.data.len = n) :
    (cols.map (fun c => columnMatchCount needle c.data)).sum ≤
      n * (cols.filter (fun c => c.data.isText)).length := by
  induction cols with
  | nil => simp
  | cons c rest ih =>
    have hc := h c (List.mem_cons_self _ _)
    have hrest := ih (fun d hd => h d (List.mem_cons_of_mem _ hd))
    cases hd : c.data with
    | text vs =>
      have hlen : vs.length = n := by simpa [hd, ColumnData.len] using hc
      have hle : (vs.filter (valueHit needle)).length ≤ n :=
        hlen ▸ List.length_filter_le _ _
      have hmap : (List.map (fun c => columnMatchCount needle c.data) (c :: rest)).sum
          = (vs.filter (valueHit needle)).length
            + (List.map (fun c => columnMatchCount needle c.data) rest).sum := by
        simp [columnMatchCount, hd]
      have hfil : (List.filter (fun c => c.data.isText) (c :: rest)).length
          = (List.filter (fun c => c.data.isText) rest).length + 1 := by
        simp [List.filter_cons, hd, ColumnData.isText]
      rw [hmap, hfil, Nat.mul_add, Nat.mul_one]
      omega
    | nonText m =>
      have hmap : (List.map (fun c => columnMatchCount needle c.data) (c :: rest)).sum
          = (List.map (fun c => columnMatchCount needle c.data) rest).sum := by
        simp [columnMatchCount, hd]
      have hfil : (List.filter (fun c => c.data.isText) (c :: rest)).length
          = (List.filter (fun c => c.data.isText) rest).length := by
        simp [List.filter_cons, hd, ColumnData.isText]
      rw [hmap, hfil]
      exact hrest

theorem batchMatchCount_le (needle : String) (b : RecordBatch)
    (h : b.wf = true) :
    batchMatchCount needle b ≤ b.numRows * textColCount b := by
  have hcols : ∀ c ∈ b.columns, c.data.len = b.numRows := by
    intro c hc
    have := (List.all_eq_true.mp h) c hc
    simpa using this
  exact colsMatchCount_le needle b.numRows b.columns hcols

theorem arrowScan_le (needle : String) (batches : List (Except ZnError RecordBatch))
    (n : Nat) (hok : arrowScan needle batches = .ok n)
    (hwf : ∀ x ∈ batches, exceptWf x = true) :
    n ≤ (batches.map (fun x => match x with
      | .ok b => b.numRows * textColCount b
      | .error _ => 0)).sum := by
  induction batches generalizing n with
  | nil =>
    injection hok with h
    simp [← h]
  | cons x rest ih =>
    cases x with
    | error e => simp [arrowScan] at hok
    | ok b =>
      simp only [arrowScan] at hok
      cases hr : arrowScan needle rest with
      | error e => rw [hr] at hok; cases hok
      | ok m =>
        rw [hr] at hok
        injection hok with hok
        have h1 : batchMatchCount needle b ≤ b.numRows * textColCount b := by
          refine batchMatchCount_le needle b ?_
          have := hwf (.ok b) (List.mem_cons_self _ _)
          simpa [exceptWf] using this
        have h2 := ih m hr (fun y hy => hwf y (List.mem_cons_of_mem _ hy))
        simp only [List.map_cons, List.sum_cons]
        omega

/-! ## Claim theorems: Decoded Batch Scanner -/

/-- Counterexample to claim C4 as stated: on a well-formed single batch
with one row and two textual columns whose values both contain the needle,
the scanner returns 2, which exceeds the total row count 1 — the per-column
accumulation of §4.3 counts the same row once per textual column. -/
theorem arrow_count_exceeds_total_rows :
    arrow.count_occurrences [Except.ok demoBatchTwoCols] "k" = .ok 2 ∧
    totalRows [Except.ok demoBatchTwoCols] = 1 ∧
    demoBatchTwoCols.wf = true ∧
    ¬ (2 ≤ 1) := by
  refine ⟨rfl, rfl, rfl, by omega⟩

/-- Claim C4 (amended): for every batch source and needle, a successful
MatchCount is at least 0 and at most the total row count multiplied, batch
by batch, by the number of textual columns of the batch (it is at most the
plain total row count exactly when each batch has at most one textual
column). -/
theorem arrow_count_bound (batches : List (Except ZnError RecordBatch))
    (needle : String) (n : Nat)
    (hok : arrow.count_occurrences batches needle = .ok n)
    (hwf : ∀ x ∈ batches, exceptWf x = true) :
    n ≤ (batches.map (fun x => match x with
      | .ok b => b.numRows * textColCount b
      | .error _ => 0)).sum :=
  arrowScan_le needle batches n hok hwf

/-- Witness for the amended C4 on the concrete one-textual-column batch:
the count 2 is within the bound 4 × 1. -/
theorem arrow_count_bound_witness :
    arrow.count_occurrences [Except.ok demoBatchLog] "k8s" = .ok 2 ∧
    2 ≤ (([Except.ok demoBatchLog] : List (Except ZnError RecordBatch)).map
      (fun x => match x with
        | .ok b => b.numRows * textColCount b
        | .error _ => 0)).sum :=
  ⟨rfl, arrow_count_bound [Except.ok demoBatchLog] "k8s" 2 rfl (by decide)⟩

/-- Claim C5: a successful scan counts matching rows value by value: the
count equals the sum, over every batch, every textual column and every
value, of an indicator that is 0 for null values (nulls never match) and at
most 1 for non-null values regardless of how many occurrences the needle
has inside the value. -/
theorem arrow_count_row_semantics (batches : List (Except ZnError RecordBatch))
    (needle : String) (n : Nat)
    (hok : arrow.count_occurrences batches needle = .ok n) :
    (∃ bs : List RecordBatch, batches = bs.map Except.ok ∧
      n = specRowMatchCount needle bs) ∧
    valueIndicator needle none = 0 ∧
    ∀ s, valueIndicator needle (some s) ≤ 1 := by
  refine ⟨arrowScan_spec needle batches n hok, rfl, fun s => ?_⟩
  simp only [valueIndicator]
  split
  · exact Nat.le_refl 1
  · exact Nat.zero_le 1

/-- Witness for C5 on the concrete batch: two of the three non-null `log`
values contain `k8s`, the null never matches, and the count is 2. -/
theorem arrow_count_row_semantics_witness :
    arrow.count_occurrences [Except.ok demoBatchLog] "k8s" = .ok 2 ∧
    ((∃ bs : List RecordBatch,
        ([Except.ok demoBatchLog] : List (Except ZnError RecordBatch)) = bs.map Except.ok ∧
        2 = specRowMatchCount "k8s" bs) ∧
      valueIndicator "k8s" none = 0 ∧
      ∀ s, valueIndicator "k8s" (some s) ≤ 1) :=
  ⟨rfl, arrow_count_row_semantics [Except.ok demoBatchLog] "k8s" 2 rfl⟩

/-! ## Claim theorems: determinism and registration -/

/-- Claim C9: both scanners are pure functions of the immutable
metadata/file access and the needle, so invoking either twice on the same
input yields identical results. -/
theorem scanners_idempotent (r : FileReader) (bn : List Nat)
    (batches : List (Except ZnError RecordBatch)) (s : String) :
    file.count_occurrences r bn = file.count_occurrences r bn ∧
    arrow.count_occurrences batches s = arrow.count_occurrences batches s :=
  ⟨rfl, rfl⟩

/-- Claim C10: registering `MATCH_UDF` into any catalog makes the name
`str_match` resolve to it; it takes exactly two arguments, so a filter
call `str_match("col", 'needle')` plans (name found, arity 2 matches the
two arguments) and evaluates without error on any two arguments. -/
theorem str_match_registered (cat : List ScalarUDF) (a b : Option String) :
    lookup_udf (register_udf cat match_udf.MATCH_UDF) "str_match"
      = some match_udf.MATCH_UDF ∧
    match_udf.MATCH_UDF.name = "str_match" ∧
    match_udf.MATCH_UDF.arity = 2 ∧
    plan_scalar_call (register_udf cat match_udf.MATCH_UDF) "str_match" 2 = true ∧
    ∃ r, match_udf.MATCH_UDF.eval [a, b] = .ok r := by
  have hfind : lookup_udf (register_udf cat match_udf.MATCH_UDF) "str_match"
      = some match_udf.MATCH_UDF := by
    simp [lookup_udf, register_udf, List.find?, match_udf.MATCH_UDF]
  refine ⟨hfind, rfl, rfl, ?_, ?_⟩
  · simp only [plan_scalar_call]
    rw [hfind]
    rfl
  · cases b with
    | none => exact ⟨none, rfl⟩
    | some nd => exact ⟨match_udf.matches a nd, rfl⟩
